import Mathlib

/-!
Verification development for the Generation Pipeline & Virtual Workspace
subsystem: a shallow embedding, in Lean 4, of the request scheduler
(`src/services/queue.ts`), the timeout guard (`withTimeout`), the generation
orchestrator (`src/services/gemini.ts`), and the virtual-workspace logic
(bundler, undo/redo history, autosave timers) of the live-preview component.

Machine integers of the source are modelled as `Nat`; JavaScript promises
are modelled by their settlement outcome; JavaScript objects
(`Record<string, …>`) are modelled as ordered association lists, matching
JS own-key insertion order; fallible operations return `Option`/`Except`.
-/

namespace Spec2Proof

/-! ## Request Scheduler (`src/services/queue.ts`) -/

/-- The two priority tiers of `type Priority = 'high' | 'normal'`. -/
inductive Priority where
  | high
  | normal
deriving DecidableEq, Repr

/-- A queued task: `{ id: number, priority: Priority }`.  The `run`,
`resolve`, `reject` fields of the source are the task's operation and its
settlement callbacks; for scheduling-order questions only the identity and
the priority matter, so the operation itself is left abstract. -/
structure Task where
  id : Nat
  priority : Priority
deriving DecidableEq, Repr

/-- `pickNext` of `queue.ts`:
`findIndex` of the first `'high'` task; if found, `splice` it out;
otherwise `shift()` the head (or `null` when the queue is empty). -/
def pickNext (q : List Task) : Option (Task × List Task) :=
  match q.findIdx? (fun t => t.priority == Priority.high) with
  | some i => (q[i]?).map (fun t => (t, q.eraseIdx i))
  | none => q.head?.map (fun t => (t, q.tail))

theorem pickNext_length {q : List Task} {t : Task} {q' : List Task}
    (h : pickNext q = some (t, q')) : q'.length < q.length := by
  unfold pickNext at h
  cases hf : q.findIdx? (fun t => t.priority == Priority.high) with
  | some i =>
    simp only [hf] at h
    cases hg : q[i]? with
    | some u =>
      simp only [hg, Option.map_some', Option.some.injEq, Prod.mk.injEq] at h
      obtain ⟨-, rfl⟩ := h
      have hi : i < q.length := by
        by_contra hx
        rw [List.getElem?_eq_none (Nat.le_of_not_lt hx)] at hg
        exact Option.noConfusion hg
      rw [List.length_eraseIdx, if_pos hi]
      omega
    | none => simp [hg] at h
  | none =>
    simp only [hf] at h
    cases q with
    | nil => simp [List.head?] at h
    | cons a as =>
      simp only [List.head?, Option.map_some', Option.some.injEq,
        Prod.mk.injEq, List.tail] at h
      obtain ⟨-, rfl⟩ := h
      simp

/-- The worker loop of `work()` run to exhaustion from a given queue with no
further arrivals: the order in which tasks are taken (and hence resolved),
one at a time, a task's own failure not halting the loop. -/
def drain (q : List Task) : List Task :=
  match h : pickNext q with
  | none => []
  | some (t, q') => t :: drain q'
termination_by q.length
decreasing_by exact pickNext_length h

/-- Observable timeline of one worker pass: a NORMAL task first begins its
artificial 1500 ms delay and then starts running; a HIGH task starts
running immediately (delay 0). -/
inductive QEvent where
  | delayStart (id : Nat)
  | runStart (id : Nat)
deriving DecidableEq, Repr

/-- Events emitted for one task by the body of the worker loop. -/
def taskEvents (t : Task) : List QEvent :=
  if t.priority == Priority.normal then
    [QEvent.delayStart t.id, QEvent.runStart t.id]
  else
    [QEvent.runStart t.id]

/-- Events of a whole worker pass, in execution order. -/
def evList : List Task → List QEvent
  | [] => []
  | t :: ts => taskEvents t ++ evList ts

theorem evList_append (l₁ l₂ : List Task) :
    evList (l₁ ++ l₂) = evList l₁ ++ evList l₂ := by
  induction l₁ with
  | nil => rfl
  | cons t ts ih => simp [evList, ih]

theorem mem_evList {t : Task} {l : List Task} {e : QEvent}
    (ht : t ∈ l) (he : e ∈ taskEvents t) : e ∈ evList l := by
  induction l with
  | nil => cases ht
  | cons a as ih =>
    rcases List.mem_cons.mp ht with rfl | hmem
    · exact List.mem_append.mpr (Or.inl he)
    · exact List.mem_append.mpr (Or.inr (ih hmem))

/-! Auxiliary facts about `findIdx?`, `filter` and `eraseIdx` needed for the
drain characterization. -/

theorem findIdx?_zero_cons {p : α → Bool} {a : α} {l : List α} :
    List.findIdx? p (a :: l) =
      if p a then some 0 else (List.findIdx? p l).map (· + 1) := by
  rw [List.findIdx?_cons]
  by_cases h : p a
  · simp [h]
  · simp [h, List.findIdx?_succ]

theorem findIdx?_none_filter {p : α → Bool} {l : List α}
    (h : List.findIdx? p l = none) : l.filter p = [] := by
  induction l with
  | nil => rfl
  | cons a as ih =>
    rw [findIdx?_zero_cons] at h
    by_cases hp : p a
    · simp [hp] at h
    · rw [if_neg (by simp [hp]), Option.map_eq_none'] at h
      simp [List.filter_cons, hp, ih h]

theorem findIdx?_some_get {p : α → Bool} {l : List α} {i : Nat}
    (h : List.findIdx? p l = some i) : ∃ t, l[i]? = some t ∧ p t := by
  induction l generalizing i with
  | nil => simp [List.findIdx?] at h
  | cons a as ih =>
    rw [findIdx?_zero_cons] at h
    by_cases hp : p a
    · rw [if_pos hp] at h
      obtain rfl := Option.some.injEq .. ▸ h
      exact ⟨a, by simp, hp⟩
    · rw [if_neg (by simp [hp]), Option.map_eq_some'] at h
      obtain ⟨j, hj, rfl⟩ := h
      obtain ⟨t, hg, hpt⟩ := ih hj
      exact ⟨t, by simpa using hg, hpt⟩

theorem filter_eraseIdx_of_first {p : α → Bool} {l : List α} {i : Nat} {t : α}
    (hf : List.findIdx? p l = some i) (hg : l[i]? = some t) :
    l.filter p = t :: (l.eraseIdx i).filter p := by
  induction l generalizing i with
  | nil => simp [List.findIdx?] at hf
  | cons a as ih =>
    rw [findIdx?_zero_cons] at hf
    by_cases hp : p a
    · rw [if_pos hp] at hf
      obtain rfl := (Option.some.injEq .. ▸ hf).symm
      simp only [List.getElem?_cons_zero, Option.some.injEq] at hg
      subst hg
      simp [List.filter_cons, hp, List.eraseIdx_cons_zero]
    · rw [if_neg (by simp [hp]), Option.map_eq_some'] at hf
      obtain ⟨j, hj, rfl⟩ := hf
      have hg' : as[j]? = some t := by simpa using hg
      rw [List.eraseIdx_cons_succ]
      simp [List.filter_cons, hp, ih hj hg']

theorem filter_eraseIdx_of_not {p : α → Bool} {l : List α} {i : Nat} {t : α}
    (hg : l[i]? = some t) (hpt : ¬ p t) :
    l.filter p = (l.eraseIdx i).filter p := by
  induction l generalizing i with
  | nil => simp at hg
  | cons a as ih =>
    cases i with
    | zero =>
      simp only [List.getElem?_cons_zero, Option.some.injEq] at hg
      subst hg
      simp [List.filter_cons, hpt, List.eraseIdx_cons_zero]
    | succ j =>
      have hg' : as[j]? = some t := by simpa using hg
      rw [List.eraseIdx_cons_succ]
      simp [List.filter_cons, ih hg']

/-- Predicate form: the task is HIGH priority. -/
def isHigh (t : Task) : Bool := t.priority == Priority.high

/-- Predicate form: the task is NORMAL priority. -/
def isNormal (t : Task) : Bool := t.priority == Priority.normal

theorem not_isHigh_iff {t : Task} : isHigh t = false ↔ isNormal t = true := by
  rcases t with ⟨id, p⟩
  cases p <;> simp [isHigh, isNormal]

/-- Characterization of a full worker pass: the completion order is exactly
the HIGH tasks in queue (= enqueue) order followed by the NORMAL tasks in
queue order. -/
theorem drain_eq (q : List Task) :
    drain q = q.filter isHigh ++ q.filter isNormal := by
  suffices h : ∀ n (q : List Task), q.length = n →
      drain q = q.filter isHigh ++ q.filter isNormal from h q.length q rfl
  intro n
  induction n using Nat.strong_induction_on with
  | _ n ih =>
  intro q hn
  rw [drain]
  split
  · next hp =>
    unfold pickNext at hp
    cases hf : q.findIdx? (fun t => t.priority == Priority.high) with
    | some i =>
      simp only [hf] at hp
      obtain ⟨t, hg, -⟩ := findIdx?_some_get hf
      rw [hg] at hp
      simp at hp
    | none =>
      simp only [hf] at hp
      cases q with
      | nil => rfl
      | cons a as => simp [List.head?] at hp
  · next t q' hp =>
    have hlen := pickNext_length hp
    unfold pickNext at hp
    cases hf : q.findIdx? (fun t => t.priority == Priority.high) with
    | some i =>
      simp only [hf] at hp
      obtain ⟨u, hg, hpu⟩ := findIdx?_some_get hf
      rw [hg] at hp
      simp only [Option.map_some', Option.some.injEq, Prod.mk.injEq] at hp
      obtain ⟨rfl, rfl⟩ := hp
      have hfil : q.filter isHigh = u :: (q.eraseIdx i).filter isHigh :=
        @filter_eraseIdx_of_first _ isHigh _ _ _ hf hg
      have hnor : q.filter isNormal = (q.eraseIdx i).filter isNormal := by
        refine filter_eraseIdx_of_not hg (fun hc => ?_)
        have h1 : u.priority = Priority.high := by
          have h := hpu
          simp only [beq_iff_eq] at h
          exact h
        have h2 : u.priority = Priority.normal := by
          have h := hc
          simp only [isNormal, beq_iff_eq] at h
          exact h
        rw [h1] at h2
        exact Priority.noConfusion h2
      rw [ih _ (hn ▸ hlen) _ rfl, hfil, hnor]
      rfl
    | none =>
      simp only [hf] at hp
      cases q with
      | nil => simp [List.head?] at hp
      | cons a as =>
        simp only [List.head?, Option.map_some', Option.some.injEq,
          Prod.mk.injEq, List.tail] at hp
        obtain ⟨rfl, rfl⟩ := hp
        have hA : isHigh a = false := by
          have hx : List.findIdx? isHigh (a :: as) = none := hf
          rw [findIdx?_zero_cons] at hx
          by_cases h : isHigh a
          · simp [h] at hx
          · simpa using h
        have hAs : List.findIdx? isHigh as = none := by
          have hx : List.findIdx? isHigh (a :: as) = none := hf
          rw [findIdx?_zero_cons, if_neg (by simp [hA])] at hx
          simpa using hx
        rw [ih _ (hn ▸ hlen) _ rfl]
        rw [@findIdx?_none_filter _ isHigh _ hf, findIdx?_none_filter hAs]
        simp [List.filter_cons, hA, not_isHigh_iff.mp hA]

/-- C1.  For every queue of enqueued tasks (in enqueue order), the worker's
completion order `drain q` is exactly: all pending HIGH tasks in FIFO order,
followed by all pending NORMAL tasks in FIFO order.  Hence (a) the selection
policy "first pending HIGH, else oldest NORMAL" holds at every step, (b) every
HIGH task completes before any NORMAL task still pending at selection time
(in particular before NORMAL tasks enqueued earlier), and (c) relative
completion order within each tier is FIFO (same-tier pairs keep their enqueue
order). -/
theorem scheduler_priority_fifo (q : List Task) :
    drain q = q.filter isHigh ++ q.filter isNormal
    ∧ (∀ a b : Task, a ∈ q → b ∈ q → a.priority = Priority.high →
        b.priority = Priority.normal →
        List.Sublist [a, b] (drain q))
    ∧ (∀ a b : Task, List.Sublist [a, b] q → a.priority = b.priority →
        List.Sublist [a, b] (drain q)) := by
  refine ⟨drain_eq q, ?_, ?_⟩
  · intro a b ha hb hpa hpb
    rw [drain_eq]
    have hfa : a ∈ q.filter isHigh :=
      List.mem_filter.mpr ⟨ha, by simp [isHigh, hpa]⟩
    have hfb : b ∈ q.filter isNormal :=
      List.mem_filter.mpr ⟨hb, by simp [isNormal, hpb]⟩
    have h1 : List.Sublist [a] (q.filter isHigh) :=
      List.singleton_sublist.mpr hfa
    have h2 : List.Sublist [b] (q.filter isNormal) :=
      List.singleton_sublist.mpr hfb
    exact h1.append h2
  · intro a b hsub hpr
    rw [drain_eq]
    cases hcase : a.priority with
    | high =>
      have hb : b.priority = Priority.high := by rw [← hpr, hcase]
      have : List.Sublist ([a, b].filter isHigh) (q.filter isHigh) :=
        hsub.filter isHigh
      rw [show [a, b].filter isHigh = [a, b] by
        simp [List.filter_cons, isHigh, hcase, hb]] at this
      exact this.trans (List.sublist_append_left _ _)
    | normal =>
      have hb : b.priority = Priority.normal := by rw [← hpr, hcase]
      have : List.Sublist ([a, b].filter isNormal) (q.filter isNormal) :=
        hsub.filter isNormal
      rw [show [a, b].filter isNormal = [a, b] by
        simp [List.filter_cons, isNormal, hcase, hb]] at this
      exact this.trans (List.sublist_append_right _ _)

/-- C1 witness: concrete instantiation on the queue
[normal 1, high 2, normal 3, high 4]. -/
theorem scheduler_priority_fifo_witness :
    (⟨2, Priority.high⟩ : Task) ∈
        [⟨1, Priority.normal⟩, ⟨2, Priority.high⟩,
         ⟨3, Priority.normal⟩, (⟨4, Priority.high⟩ : Task)]
    ∧ List.Sublist [(⟨2, Priority.high⟩ : Task), ⟨1, Priority.normal⟩]
        (drain [⟨1, Priority.normal⟩, ⟨2, Priority.high⟩,
                ⟨3, Priority.normal⟩, ⟨4, Priority.high⟩])
    ∧ List.Sublist [(⟨1, Priority.normal⟩ : Task), ⟨3, Priority.normal⟩]
        (drain [⟨1, Priority.normal⟩, ⟨2, Priority.high⟩,
                ⟨3, Priority.normal⟩, ⟨4, Priority.high⟩]) :=
  ⟨by decide,
   (scheduler_priority_fifo _).2.1 _ _ (by decide) (by decide) rfl rfl,
   (scheduler_priority_fifo _).2.2 _ _ (by decide) rfl⟩

/-- C8.  If a NORMAL task `a` is pending in the queue and a HIGH task `b` is
also pending (e.g. it was enqueued while `a` was still pending), then on the
worker's timeline `b`'s operation starts running before `a`'s artificial
1500 ms throttling delay begins. -/
theorem high_runs_before_normal_delay (q : List Task) (a b : Task)
    (ha : a ∈ q) (hb : b ∈ q)
    (hpa : a.priority = Priority.normal) (hpb : b.priority = Priority.high) :
    List.Sublist [QEvent.runStart b.id, QEvent.delayStart a.id]
      (evList (drain q)) := by
  rw [drain_eq, evList_append]
  have hfb : b ∈ q.filter isHigh :=
    List.mem_filter.mpr ⟨hb, by simp [isHigh, hpb]⟩
  have hfa : a ∈ q.filter isNormal :=
    List.mem_filter.mpr ⟨ha, by simp [isNormal, hpa]⟩
  have h1 : QEvent.runStart b.id ∈ evList (q.filter isHigh) :=
    mem_evList hfb (by simp [taskEvents, hpb])
  have h2 : QEvent.delayStart a.id ∈ evList (q.filter isNormal) :=
    mem_evList hfa (by simp [taskEvents, hpa])
  exact (List.singleton_sublist.mpr h1).append (List.singleton_sublist.mpr h2)

/-- C8 witness: NORMAL task 1 enqueued first, HIGH task 2 enqueued second
while task 1 is still pending. -/
theorem high_runs_before_normal_delay_witness :
    List.Sublist [QEvent.runStart 2, QEvent.delayStart 1]
      (evList (drain [⟨1, Priority.normal⟩, ⟨2, Priority.high⟩])) :=
  high_runs_before_normal_delay _ ⟨1, Priority.normal⟩ ⟨2, Priority.high⟩
    (by decide) (by decide) rfl rfl

/-! ## Timeout Guard (`withTimeout`, `src/utils/timeout.ts`) -/

/-- The failure values observable through the guard: the guard's own
`TimeoutError` (with its message) or any other JavaScript error
(identified by its message). -/
inductive JsErr where
  | timeoutErr (msg : String)
  | otherErr (msg : String)
deriving DecidableEq, Repr

/-- A promise modelled by its settlement: the (virtual) time at which it
settles and the value or rejection reason it settles with. -/
structure PromiseOutcome (α : Type) where
  time : Nat
  result : Except JsErr α
deriving Repr

/-- The default `TimeoutError` message built by `withTimeout` when the caller
passes no `errorMessage`: `Operation timed out after ${timeoutMs}ms`. -/
def defaultTimeoutMsg (timeoutMs : Nat) : String :=
  "Operation timed out after " ++ toString timeoutMs ++ "ms"

/-- `withTimeout(promise, timeoutMs, errorMessage?)`: races the promise
against a `setTimeout(timeoutMs)` that rejects with a `TimeoutError`; the
first side to settle decides the overall outcome, and the timer is cleared
either way.  The tie `time = timeoutMs` is resolved here in favour of the
promise-settles-first branch; both claims below use strict inequalities, so
nothing rests on the tie. -/
def withTimeout (p : PromiseOutcome α) (timeoutMs : Nat)
    (errorMessage : Option String) : PromiseOutcome α :=
  if p.time < timeoutMs then p
  else
    { time := timeoutMs
      result := Except.error
        (JsErr.timeoutErr (errorMessage.getD (defaultTimeoutMsg timeoutMs))) }

/-- C6.  If the promise settles strictly before the deadline, `withTimeout`
yields the promise's own outcome unchanged (value on success, the promise's
own rejection reason on failure); if the deadline elapses strictly first, it
yields a `TimeoutError` carrying the caller-supplied or default message; and
every failure observable through the wrapper is either the promise's own
rejection, unchanged, or that one `TimeoutError` — timeout is the only
failure kind the wrapper introduces. -/
theorem withTimeout_spec (p : PromiseOutcome α) (d : Nat)
    (msg : Option String) :
    (p.time < d → (withTimeout p d msg).result = p.result)
    ∧ (d < p.time → (withTimeout p d msg).result =
        Except.error (JsErr.timeoutErr (msg.getD (defaultTimeoutMsg d))))
    ∧ (∀ e, (withTimeout p d msg).result = Except.error e →
        p.result = Except.error e
        ∨ e = JsErr.timeoutErr (msg.getD (defaultTimeoutMsg d))) := by
  refine ⟨?_, ?_, ?_⟩
  · intro h
    rw [withTimeout, if_pos h]
  · intro h
    rw [withTimeout, if_neg (by omega)]
  · intro e he
    by_cases h : p.time < d
    · rw [withTimeout, if_pos h] at he
      exact Or.inl he
    · rw [withTimeout, if_neg h] at he
      right
      exact (Except.error.injEq .. ▸ he).symm

/-- C6 witness: a promise rejecting with its own error at time 50 against a
100 ms deadline propagates that rejection unchanged; a promise settling at
time 200 against the same deadline yields the caller-supplied timeout
message. -/
theorem withTimeout_spec_witness :
    (50 < 100
      ∧ (withTimeout (⟨50, Except.error (JsErr.otherErr "boom")⟩ :
            PromiseOutcome Nat) 100 (some "too slow")).result =
          Except.error (JsErr.otherErr "boom"))
    ∧ (100 < 200
      ∧ (withTimeout (⟨200, Except.ok 7⟩ : PromiseOutcome Nat) 100
            (some "too slow")).result =
          Except.error (JsErr.timeoutErr "too slow")) :=
  ⟨⟨by decide,
    (withTimeout_spec (⟨50, Except.error (JsErr.otherErr "boom")⟩ :
        PromiseOutcome Nat) 100 (some "too slow")).1 (by decide)⟩,
   ⟨by decide,
    (withTimeout_spec (⟨200, Except.ok 7⟩ : PromiseOutcome Nat) 100
        (some "too slow")).2.1 (by decide)⟩⟩

/-! ## Virtual Workspace editor state (`LivePreview`, SignInModal.tsx):
undo/redo history and the local-edit handler. -/

/-- A workspace file map `Record<string, { content: string }>`, modelled as
an ordered association list path ↦ content (JS object own-key order);
`lookupFM` is property access (first, and only, binding of a key). -/
abbrev FileMap : Type := List (String × String)

/-- Property read `fm[path]`. -/
def lookupFM (fm : FileMap) (k : String) : Option String := List.lookup k fm

/-- The JS computed-key update
`{ ...prev, [activeFile]: { ...prev[activeFile], content: newContent } }`:
an existing key keeps its position and gets the new content; a fresh key is
appended in insertion order. -/
def jsSetKey (fm : FileMap) (k : String) (c : String) : FileMap :=
  if (lookupFM fm k).isSome then
    fm.map (fun kv => if kv.1 = k then (kv.1, c) else kv)
  else
    fm ++ [(k, c)]

/-- `SaveStatus` of the live preview: `'saved' | 'saving' | 'unsaved'`. -/
inductive SaveStatus where
  | saved
  | saving
  | unsaved
deriving DecidableEq, Repr

/-- The editor state of `LivePreview` relevant to editing and history:
`files`, the `past`/`future` snapshot stacks, `lastEditTimeRef`, and
`saveStatus`. -/
structure EditorState where
  files : FileMap
  past : List FileMap
  future : List FileMap
  lastEditTime : Nat
  saveStatus : SaveStatus
deriving DecidableEq

/-- `[...p, files]` capped at 30 entries, oldest (`shift`) evicted first. -/
def capPush (p : List FileMap) (f : FileMap) : List FileMap :=
  let newPast := p ++ [f]
  if newPast.length > 30 then newPast.tail else newPast

/-- `handleFileChange(newContent)` of `LivePreview`: a no-op unless `isPro`;
otherwise, if more than 1000 ms passed since the last edit, snapshot the
pre-edit files onto `past` (capped at 30) and clear `future`; then update
`lastEditTimeRef`, write the new content under the active file, and mark the
workspace `unsaved`. -/
def handleFileChange (isPro : Bool) (activeFile : String)
    (newContent : String) (now : Nat) (s : EditorState) : EditorState :=
  if !isPro then s
  else
    let s1 :=
      if now - s.lastEditTime > 1000 then
        { s with past := capPush s.past s.files, future := [] }
      else s
    { s1 with
      lastEditTime := now
      files := jsSetKey s1.files activeFile newContent
      saveStatus := SaveStatus.unsaved }

/-- `handleUndo` of `LivePreview`: no-op when `past` is empty; otherwise pop
the most recent `past` snapshot, push the current files onto the front of
`future`, make the popped snapshot live, and mark `unsaved`. -/
def handleUndo (s : EditorState) : EditorState :=
  match s.past.getLast? with
  | none => s
  | some previous =>
    { files := previous
      past := s.past.dropLast
      future := s.files :: s.future
      lastEditTime := s.lastEditTime
      saveStatus := SaveStatus.unsaved }

/-- `handleRedo` of `LivePreview`: no-op when `future` is empty; otherwise
take the head of `future`, push the current files onto the end of `past`,
make the taken snapshot live, and mark `unsaved`. -/
def handleRedo (s : EditorState) : EditorState :=
  match s.future with
  | [] => s
  | next :: rest =>
    { files := next
      past := s.past ++ [s.files]
      future := rest
      lastEditTime := s.lastEditTime
      saveStatus := SaveStatus.unsaved }

/-- C9.  For every editor state whose `past` stack is non-empty, `undo`
followed by `redo` restores the live file map, the `past` stack and the
`future` stack to their exact pre-undo values (structural, i.e. content,
equality). -/
theorem redo_undo_roundtrip (s : EditorState) (h : s.past ≠ []) :
    (handleRedo (handleUndo s)).files = s.files
    ∧ (handleRedo (handleUndo s)).past = s.past
    ∧ (handleRedo (handleUndo s)).future = s.future := by
  rcases List.eq_nil_or_concat s.past with hnil | ⟨p, x, hx⟩
  · exact absurd hnil h
  rw [List.concat_eq_append] at hx
  have hundo : handleUndo s =
      { files := x
        past := p
        future := s.files :: s.future
        lastEditTime := s.lastEditTime
        saveStatus := SaveStatus.unsaved } := by
    unfold handleUndo
    rw [hx]
    simp only [List.getLast?_concat, List.dropLast_concat]
  rw [hundo]
  simp [handleRedo, hx]

/-- C9 witness: a concrete state with one `past` snapshot round-trips. -/
theorem redo_undo_roundtrip_witness :
    (({ files := [("index.html", "B")]
        past := [[("index.html", "A")]]
        future := []
        lastEditTime := 5
        saveStatus := SaveStatus.saved } : EditorState).past ≠ [])
    ∧ (handleRedo (handleUndo
        { files := [("index.html", "B")]
          past := [[("index.html", "A")]]
          future := []
          lastEditTime := 5
          saveStatus := SaveStatus.saved })).files = [("index.html", "B")] :=
  ⟨by decide,
   (redo_undo_roundtrip
     { files := [("index.html", "B")]
       past := [[("index.html", "A")]]
       future := []
       lastEditTime := 5
       saveStatus := SaveStatus.saved } (by decide)).1⟩

/-- C10.  When `isPro` is false, `handleFileChange` returns immediately: the
whole editor state — files, past, future, last-edit timestamp, and save
status — is unchanged, so local edits by non-Pro users are discarded. -/
theorem handleFileChange_nonPro (activeFile newContent : String) (now : Nat)
    (s : EditorState) :
    handleFileChange false activeFile newContent now s = s := by
  rw [handleFileChange]
  rfl

/-! ## Autosave timers (`LivePreview` auto-save effect, SignInModal.tsx)

The effect runs on every change of `files`; its cleanup
(`clearTimeout(timeoutId); clearInterval(intervalId)`) also runs on every
change of `files`, so BOTH the 2000 ms debounce `setTimeout` and the
30000 ms `setInterval` are cancelled and restarted on each edit.  A timer
armed at edit time `t` therefore only fires if its fire time comes strictly
before the next edit (which re-arms everything) — or before the end of the
observation window after the final edit. -/

/-- Debounce interval of the auto-save effect (ms). -/
def saveDebounceMs : Nat := 2000

/-- Period of the max-wait `setInterval` of the auto-save effect (ms). -/
def maxWaitMs : Nat := 30000

/-- Times in `(t, cutoff)` at which the timers armed at edit time `t` fire
before being cleared at `cutoff`: the one-shot debounce at `t + 2000`, and
the interval ticks at `t + 30000·k` (`k ≥ 1`). -/
def firesBetween (t cutoff : Nat) : List Nat :=
  (if t + saveDebounceMs < cutoff then [t + saveDebounceMs] else []) ++
    (List.range (if cutoff ≤ t then 0 else (cutoff - t - 1) / maxWaitMs)).map
      (fun k => t + maxWaitMs * (k + 1))

/-- All times, inside the observation window ending at `windowEnd`, at which
the auto-save effect transitions `SaveStatus` to `saving`, for a given
strictly increasing list of edit times: each edit clears the pending timers
and re-arms both of them. -/
def savingTransitions : List Nat → Nat → List Nat
  | [], _ => []
  | [t], windowEnd => firesBetween t windowEnd
  | t :: t' :: rest, windowEnd =>
    firesBetween t (min t' windowEnd) ++ savingTransitions (t' :: rest) windowEnd

/-- C7 (code behaviour).  Under continuous editing — one edit every 1000 ms
(every gap shorter than the 2000 ms debounce) for the whole 40-second
window — the auto-save effect produces NO `saving` transition at all inside
the window: each edit clears and re-arms not only the debounce but also the
30-second max-wait `setInterval`, so neither timer ever fires.  This
contradicts the claim (and the source's own "Fallback: Max interval (e.g.
if typing continuously for 30s)" comment), which require at least one
`saving` transition in the window. -/
theorem autosave_no_saving_under_continuous_edits :
    savingTransitions ((List.range 40).map (· * 1000)) 40000 = [] := by
  decide

/-! ## Generation Orchestrator retry loops (`src/services/gemini.ts`) -/

/-- `GEMINI_MODEL` of gemini.ts: the primary model. -/
def GEMINI_MODEL : String := "gemini-3-pro-preview"

/-- `FALLBACK_MODEL` of gemini.ts. -/
def FALLBACK_MODEL : String := "gemini-2.5-flash"

/-- `maxRetries` of `bringToLifeInternal` / `refineCreationInternal`. -/
def maxRetries : Nat := 3

/-- One attempt as recorded for the retry analysis: the 0-based attempt
index, the model name passed to `executeGeneration`, and the backoff wait
(`1000 * 2^attempt` ms) performed after this attempt failed — `none` when
the attempt succeeded or was the last one. -/
structure AttemptLog where
  idx : Nat
  model : String
  backoffAfter : Option Nat
deriving DecidableEq, Repr

/-- The retry loop shared by `bringToLifeInternal` and
`refineCreationInternal`, starting at a given attempt index with the given
remaining loop iterations.  `att i m` is the outcome of
`executeGeneration(m, …)` on attempt `i` (the network call and response
sanitization, abstracted as an oracle).  On attempt 0 the primary model is
used, on every later attempt the fallback model; a failed non-final attempt
is followed by a `1000 * 2^attempt` ms backoff; the final attempt's failure
is rethrown to the caller. -/
def retryFrom (onSuccess : α → β) (failMsg : String)
    (att : Nat → String → Except String α) :
    Nat → Nat → List AttemptLog × Except String β
  | 0, _ => ([], Except.error failMsg)
  | fuel + 1, attempt =>
    let m := if attempt = 0 then GEMINI_MODEL else FALLBACK_MODEL
    match att attempt m with
    | Except.ok v => ([⟨attempt, m, none⟩], Except.ok (onSuccess v))
    | Except.error e =>
      if attempt < maxRetries - 1 then
        let r := retryFrom onSuccess failMsg att fuel (attempt + 1)
        (⟨attempt, m, some (1000 * 2 ^ attempt)⟩ :: r.1, r.2)
      else ([⟨attempt, m, none⟩], Except.error e)

/-- `bringToLifeInternal`'s retry behaviour (payload construction aside):
the loop `for attempt in 0..<maxRetries`, returning the attempt trace and
the final outcome.  The `throw new Error("Generation failed")` after the
loop is unreachable and corresponds to the fuel-0 case. -/
def bringToLifeRun (att : Nat → String → Except String α) :
    List AttemptLog × Except String α :=
  retryFrom id "Generation failed" att maxRetries 0

/-- The JS object spread `{ ...fm, ...updates }` on ordered association
lists: keys of `fm` keep their positions, values overwritten by `updates`
where present; keys of `updates` absent from `fm` are appended in order. -/
def jsSpread (fm updates : List (String × α)) : List (String × α) :=
  fm.map (fun kv =>
    match List.lookup kv.1 updates with
    | some v => (kv.1, v)
    | none => kv) ++
    updates.filter (fun kv => (List.lookup kv.1 fm).isNone)

/-- `refineCreationInternal currentFiles`: same retry loop, but a successful
attempt's parsed update map is merged into `currentFiles` by
`{ ...currentFiles, ...updates }`. -/
def refineRun (currentFiles : List (String × α))
    (att : Nat → String → Except String (List (String × α))) :
    List AttemptLog × Except String (List (String × α)) :=
  retryFrom (jsSpread currentFiles) "Refinement failed" att maxRetries 0

theorem lookup_spread_map {fm updates : List (String × α)} {k : String} :
    List.lookup k (fm.map (fun kv =>
        match List.lookup kv.1 updates with
        | some v => (kv.1, v)
        | none => kv)) =
      (List.lookup k fm).map (fun v => (List.lookup k updates).getD v) := by
  induction fm with
  | nil => rfl
  | cons a fm ih =>
    rcases a with ⟨ak, av⟩
    by_cases hk : k = ak
    · subst hk
      cases hu : List.lookup k updates <;>
        simp [List.lookup_cons, hu, List.map_cons]
    · have hne : (k == ak) = false := by simp [hk]
      cases hu : List.lookup ak updates <;>
        simp [List.lookup_cons, hne, List.map_cons, ih, hu]

theorem lookup_filter_keys {l : List (String × α)} {q : String → Bool}
    {k : String} :
    List.lookup k (l.filter (fun kv => q kv.1)) =
      if q k then List.lookup k l else none := by
  induction l with
  | nil => simp
  | cons a l ih =>
    rcases a with ⟨ak, av⟩
    by_cases hk : k = ak
    · subst hk
      by_cases hq : q k
      · simp [List.filter_cons, hq, List.lookup_cons, ih]
      · have : (fun kv => q (Prod.fst kv)) ((k, av) : String × α) = false := by
          simpa using hq
        simp [List.filter_cons, this, ih, hq]
    · have hne : (k == ak) = false := by simp [hk]
      by_cases hq : q ak
      · simp [List.filter_cons, hq, List.lookup_cons, hne, ih]
      · have hfa : (fun kv => q (Prod.fst kv)) ((ak, av) : String × α) = false := by
          simpa using hq
        simp [List.filter_cons, hfa, ih, List.lookup_cons, hne]

theorem lookup_append_or {l₁ l₂ : List (String × α)} {k : String} :
    List.lookup k (l₁ ++ l₂) =
      (List.lookup k l₁).or (List.lookup k l₂) := by
  induction l₁ with
  | nil => simp
  | cons a l ih =>
    rcases a with ⟨ak, av⟩
    by_cases hk : k = ak
    · subst hk
      simp [List.lookup_cons]
    · have hne : (k == ak) = false := by simp [hk]
      simp [List.lookup_cons, hne, ih]

/-- Lookup characterization of the spread merge: a key present in the
update map reads the update's value; a key absent from it reads `fm`'s
value. -/
theorem lookup_jsSpread (fm updates : List (String × α)) (k : String) :
    List.lookup k (jsSpread fm updates) =
      (List.lookup k updates).or (List.lookup k fm) := by
  rw [jsSpread, lookup_append_or, lookup_spread_map,
    @lookup_filter_keys _ _ (fun s => (List.lookup s fm).isNone) _]
  cases hf : List.lookup k fm with
  | none => simp [hf]
  | some v =>
    cases hu : List.lookup k updates <;> simp [hf, hu]

/-- C2.  For every prior file map `fm` and every refinement attempt result
that parses to an update map `r` (the first attempt succeeding with `r`),
`refine` returns exactly the spread merge `{ ...fm, ...r }`: every key of
`r` reads `r`'s value in the result, and every key of `fm` absent from `r`
reads a value identical to its value in `fm` — the response is never
treated as a complete replacement. -/
theorem refine_merges_response (fm r : List (String × α))
    (att : Nat → String → Except String (List (String × α)))
    (h0 : att 0 GEMINI_MODEL = Except.ok r) :
    (refineRun fm att).2 = Except.ok (jsSpread fm r)
    ∧ (∀ k v, List.lookup k r = some v →
        List.lookup k (jsSpread fm r) = some v)
    ∧ (∀ k, List.lookup k r = none →
        List.lookup k (jsSpread fm r) = List.lookup k fm) := by
  refine ⟨?_, ?_, ?_⟩
  · rw [refineRun, show maxRetries = 2 + 1 from rfl, retryFrom]
    rw [if_pos (show (0 : Nat) = 0 from rfl)]
    simp only [h0]
  · intro k v hv
    rw [lookup_jsSpread, hv]
    rfl
  · intro k hv
    rw [lookup_jsSpread, hv]
    rfl

/-- C2 witness: `fm = {a:1, b:9}`, response `r = {a:2, c:3}`; the merge
overwrites `a`, keeps `b` byte-identical, appends `c`. -/
theorem refine_merges_response_witness :
    ((fun (_ : Nat) (_ : String) =>
        (Except.ok [("a", "2"), ("c", "3")] :
          Except String (List (String × String)))) 0 GEMINI_MODEL =
      Except.ok [("a", "2"), ("c", "3")])
    ∧ (refineRun [("a", "1"), ("b", "9")]
        (fun _ _ => Except.ok [("a", "2"), ("c", "3")])).2 =
      Except.ok (jsSpread [("a", "1"), ("b", "9")] [("a", "2"), ("c", "3")])
    ∧ jsSpread [("a", "1"), ("b", "9")] [("a", "2"), ("c", "3")] =
      [("a", "2"), ("b", "9"), ("c", "3")] :=
  ⟨rfl,
   (refine_merges_response [("a", "1"), ("b", "9")] [("a", "2"), ("c", "3")]
      (fun _ _ => Except.ok [("a", "2"), ("c", "3")]) rfl).1,
   by decide⟩

/-- C4.  When every attempt fails, the generate loop makes exactly three
attempts: attempt 0 on the primary model and attempts 1 and 2 (displayed
1-indexed as attempts 2 and 3) on the fallback model; a backoff of
`1000·2^0 = 1000` ms follows the first failure and `1000·2^1 = 2000` ms the
second; and the caller receives the single terminal failure of the final
attempt (the retry-exhaustion failure of the spec's taxonomy) with no
further attempt after it. -/
theorem generate_retry_exhaustion (att : Nat → String → Except String α)
    (e0 e1 e2 : String)
    (h0 : att 0 GEMINI_MODEL = Except.error e0)
    (h1 : att 1 FALLBACK_MODEL = Except.error e1)
    (h2 : att 2 FALLBACK_MODEL = Except.error e2) :
    bringToLifeRun att =
      ([⟨0, GEMINI_MODEL, some 1000⟩,
        ⟨1, FALLBACK_MODEL, some 2000⟩,
        ⟨2, FALLBACK_MODEL, none⟩],
       Except.error e2) := by
  have step2 : retryFrom (id : α → α) "Generation failed" att 1 2 =
      ([⟨2, FALLBACK_MODEL, none⟩], Except.error e2) := by
    rw [show (1 : Nat) = 0 + 1 from rfl, retryFrom]
    rw [if_neg (show ¬ (2 : Nat) = 0 by norm_num)]
    simp only [h2]
    rw [if_neg (show ¬ (2 : Nat) < maxRetries - 1 by norm_num [maxRetries])]
  have step1 : retryFrom (id : α → α) "Generation failed" att 2 1 =
      (⟨1, FALLBACK_MODEL, some 2000⟩ :: [⟨2, FALLBACK_MODEL, none⟩],
        Except.error e2) := by
    rw [show (2 : Nat) = 1 + 1 from rfl, retryFrom]
    rw [if_neg (show ¬ (1 : Nat) = 0 by norm_num)]
    simp only [h1]
    rw [if_pos (show (1 : Nat) < maxRetries - 1 by norm_num [maxRetries])]
    rw [show (1 + 1 : Nat) = 2 from rfl]
    simp only [step2]
    rfl
  rw [bringToLifeRun, show maxRetries = 2 + 1 from rfl, retryFrom]
  rw [if_pos (show (0 : Nat) = 0 from rfl)]
  simp only [h0]
  rw [if_pos (show (0 : Nat) < maxRetries - 1 by norm_num [maxRetries])]
  rw [show (0 + 1 : Nat) = 1 from rfl]
  simp only [step1]
  rfl

/-- C4 witness: three concrete parse failures exhaust the retries and
surface the last failure, with the fallback model on attempts 2 and 3. -/
theorem generate_retry_exhaustion_witness :
    ((fun (_ : Nat) (_ : String) =>
        (Except.error "AI response was not valid JSON. Please try again." :
          Except String FileMap)) 0 GEMINI_MODEL =
      Except.error "AI response was not valid JSON. Please try again.")
    ∧ bringToLifeRun
        (fun (_ : Nat) (_ : String) =>
          (Except.error "AI response was not valid JSON. Please try again." :
            Except String FileMap)) =
      ([⟨0, GEMINI_MODEL, some 1000⟩,
        ⟨1, FALLBACK_MODEL, some 2000⟩,
        ⟨2, FALLBACK_MODEL, none⟩],
       Except.error "AI response was not valid JSON. Please try again.") :=
  ⟨rfl,
   generate_retry_exhaustion
     (fun _ _ =>
       (Except.error "AI response was not valid JSON. Please try again." :
         Except String FileMap)) _ _ _ rfl rfl rfl⟩

/-! ## Response sanitization (`executeGeneration`, gemini.ts, lines 105–143)

The raw service text is cleaned in stages: strip a Markdown code fence
(`text.replace(/^```(json)?\s*/g, '').replace(/```\s*$/g, '')`), slice from
the first `{` to the last `}`, `JSON.parse` the slice, unwrap a truthy
`files` wrapper property, and on parse failure fall back to wrapping a bare
markup document.  `JSON.parse` is modelled by an executable JSON parser;
number values are kept as their lexemes (no claim inspects numeric values),
and `\uXXXX` escapes outside the BMP scalar range are modelled by
`Char.ofNat`'s fallback. -/

/-- JavaScript regex `\s` (ASCII part), used by the fence-stripping
regexes and by `trim()`. -/
def isRegexWs (c : Char) : Bool :=
  c == ' ' || c == '\t' || c == '\n' || c == '\r' || c == '\x0b' || c == '\x0c'

/-- JSON insignificant whitespace (`JSON.parse`). -/
def isJsonWs (c : Char) : Bool :=
  c == ' ' || c == '\t' || c == '\n' || c == '\r'

/-- Skip JSON whitespace. -/
def skipJsonWs (s : List Char) : List Char := s.dropWhile isJsonWs

/-- `text.replace(/^```(json)?\s*/g, '')`: anchored at the start, so at most
one leading fence (optionally tagged `json`) plus following whitespace is
removed. -/
def stripFencePrefix (t : List Char) : List Char :=
  if List.isPrefixOf "```json".data t then (t.drop 7).dropWhile isRegexWs
  else if List.isPrefixOf "```".data t then (t.drop 3).dropWhile isRegexWs
  else t

/-- `text.replace(/```\s*$/g, '')`: a trailing fence followed only by
whitespace is removed together with that whitespace; otherwise the text is
unchanged.  (Three backticks reversed are three backticks, so the suffix
test is done on the whitespace-stripped reversal.) -/
def stripFenceSuffix (t : List Char) : List Char :=
  let rev := t.reverse.dropWhile isRegexWs
  if List.isPrefixOf "```".data rev then (rev.drop 3).reverse else t

/-- The brace slice of `executeGeneration`: `indexOf('{')`,
`lastIndexOf('}')`, and `substring(firstOpen, lastClose + 1)` when both
exist and `lastClose > firstOpen`; otherwise the text is left unchanged. -/
def braceSlice (t : List Char) : List Char :=
  match t.findIdx? (fun c => c == '{'), t.reverse.findIdx? (fun c => c == '}') with
  | some i, some jr =>
    let j := t.length - 1 - jr
    if i < j then (t.drop i).take (j + 1 - i) else t
  | _, _ => t

/-- JSON values as produced by `JSON.parse`; numbers keep their lexeme. -/
inductive Json where
  | null
  | bool (b : Bool)
  | num (lexeme : String)
  | str (s : String)
  | arr (elems : List Json)
  | obj (fields : List (String × Json))
deriving Repr

/-- Hexadecimal digit value. -/
def hexVal (c : Char) : Option Nat :=
  if '0' ≤ c ∧ c ≤ '9' then some (c.toNat - '0'.toNat)
  else if 'a' ≤ c ∧ c ≤ 'f' then some (c.toNat - 'a'.toNat + 10)
  else if 'A' ≤ c ∧ c ≤ 'F' then some (c.toNat - 'A'.toNat + 10)
  else none

/-- JSON string body parser (opening quote already consumed): handles the
JSON escapes and rejects raw control characters; returns the decoded string
and the remaining input after the closing quote. -/
def parseJStringAux (acc : List Char) : List Char → Option (String × List Char)
  | [] => none
  | '"' :: rest => some (String.mk acc.reverse, rest)
  | '\\' :: rest =>
    match rest with
    | '"' :: r => parseJStringAux ('"' :: acc) r
    | '\\' :: r => parseJStringAux ('\\' :: acc) r
    | '/' :: r => parseJStringAux ('/' :: acc) r
    | 'b' :: r => parseJStringAux ('\x08' :: acc) r
    | 'f' :: r => parseJStringAux ('\x0c' :: acc) r
    | 'n' :: r => parseJStringAux ('\n' :: acc) r
    | 'r' :: r => parseJStringAux ('\r' :: acc) r
    | 't' :: r => parseJStringAux ('\t' :: acc) r
    | 'u' :: h1 :: h2 :: h3 :: h4 :: r =>
      match hexVal h1, hexVal h2, hexVal h3, hexVal h4 with
      | some a, some b, some c, some d =>
        parseJStringAux (Char.ofNat (((a * 16 + b) * 16 + c) * 16 + d) :: acc) r
      | _, _, _, _ => none
    | _ => none
  | c :: rest => if c.toNat < 32 then none else parseJStringAux (c :: acc) rest

/-- Exponent part of a JSON number after the `e`/`E` marker. -/
def parseExpRest (pre : List Char) (r : List Char) :
    Option (List Char × List Char) :=
  let sr : List Char × List Char :=
    match r with
    | '+' :: r' => (['+'], r')
    | '-' :: r' => (['-'], r')
    | _ => ([], r)
  let ds := sr.2.takeWhile Char.isDigit
  if ds.isEmpty then none
  else some (pre ++ sr.1 ++ ds, sr.2.dropWhile Char.isDigit)

/-- Optional exponent of a JSON number. -/
def parseExpPart (s : List Char) : Option (List Char × List Char) :=
  match s with
  | 'e' :: r => parseExpRest ['e'] r
  | 'E' :: r => parseExpRest ['E'] r
  | _ => some ([], s)

/-- Optional fraction-plus-exponent tail of a JSON number. -/
def parseFracExp (s : List Char) : Option (List Char × List Char) :=
  match s with
  | '.' :: r =>
    let ds := r.takeWhile Char.isDigit
    if ds.isEmpty then none
    else
      (parseExpPart (r.dropWhile Char.isDigit)).map
        (fun p => ('.' :: ds ++ p.1, p.2))
  | _ => parseExpPart s

/-- JSON number parser (grammar `-? (0 | [1-9][0-9]*) frac? exp?`);
returns the lexeme. -/
def parseNumber (s : List Char) : Option (String × List Char) :=
  let ns : List Char × List Char :=
    match s with
    | '-' :: r => (['-'], r)
    | _ => ([], s)
  match ns.2 with
  | [] => none
  | c :: r =>
    if c = '0' then
      (parseFracExp r).map (fun p => (String.mk (ns.1 ++ [c] ++ p.1), p.2))
    else if c.isDigit then
      (parseFracExp (r.dropWhile Char.isDigit)).map
        (fun p =>
          (String.mk (ns.1 ++ [c] ++ r.takeWhile Char.isDigit ++ p.1), p.2))
    else none

/-- Insertion of an object member as `JSON.parse` builds objects: a
duplicate key overwrites the value at the key's first position, a new key is
appended (JS own-key insertion order). -/
def objInsert (fields : List (String × Json)) (k : String) (v : Json) :
    List (String × Json) :=
  if (List.lookup k fields).isSome then
    fields.map (fun kv => if kv.1 = k then (kv.1, v) else kv)
  else fields ++ [(k, v)]

mutual

/-- JSON value parser with fuel (the input length bounds nesting). -/
def parseValue : Nat → List Char → Option (Json × List Char)
  | 0, _ => none
  | fuel + 1, s =>
    match skipJsonWs s with
    | '{' :: r => parseMembers fuel (skipJsonWs r) [] true
    | '[' :: r => parseElems fuel (skipJsonWs r) [] true
    | '"' :: r => (parseJStringAux [] r).map (fun p => (Json.str p.1, p.2))
    | 't' :: 'r' :: 'u' :: 'e' :: r => some (Json.bool true, r)
    | 'f' :: 'a' :: 'l' :: 's' :: 'e' :: r => some (Json.bool false, r)
    | 'n' :: 'u' :: 'l' :: 'l' :: r => some (Json.null, r)
    | s' => (parseNumber s').map (fun p => (Json.num p.1, p.2))

/-- Object members; `allowEnd` is false right after a comma, so trailing
commas are rejected as `JSON.parse` does. -/
def parseMembers : Nat → List Char → List (String × Json) → Bool →
    Option (Json × List Char)
  | 0, _, _, _ => none
  | fuel + 1, s, acc, allowEnd =>
    match s with
    | '}' :: r => if allowEnd then some (Json.obj acc, r) else none
    | '"' :: r =>
      match parseJStringAux [] r with
      | none => none
      | some (key, r1) =>
        match skipJsonWs r1 with
        | ':' :: r2 =>
          match parseValue fuel r2 with
          | none => none
          | some (v, r3) =>
            match skipJsonWs r3 with
            | ',' :: r4 =>
              parseMembers fuel (skipJsonWs r4) (objInsert acc key v) false
            | '}' :: r4 => some (Json.obj (objInsert acc key v), r4)
            | _ => none
        | _ => none
    | _ => none

/-- Array elements; `allowEnd` as for objects. -/
def parseElems : Nat → List Char → List Json → Bool →
    Option (Json × List Char)
  | 0, _, _, _ => none
  | fuel + 1, s, acc, allowEnd =>
    match s with
    | ']' :: r => if allowEnd then some (Json.arr acc.reverse, r) else none
    | s' =>
      match parseValue fuel s' with
      | none => none
      | some (v, r1) =>
        match skipJsonWs r1 with
        | ',' :: r2 => parseElems fuel (skipJsonWs r2) (v :: acc) false
        | ']' :: r2 => some (Json.arr (v :: acc).reverse, r2)
        | _ => none

end

/-- `JSON.parse` on a character list: one value, then only whitespace. -/
def jsonParse (t : List Char) : Option Json :=
  match parseValue (2 * t.length + 2) t with
  | some (j, rest) => if (skipJsonWs rest).isEmpty then some j else none
  | none => none

/-- JavaScript truthiness of a parsed JSON value (`if (parsed.files)`):
`null`, `false`, numeric zero and the empty string are falsy; every array
and object is truthy. -/
def jsTruthy : Json → Bool
  | Json.null => false
  | Json.bool b => b
  | Json.num lx =>
    (lx.data.takeWhile (fun c => c ≠ 'e' ∧ c ≠ 'E')).any
      (fun c => c.isDigit && c ≠ '0')
  | Json.str s => !(s == "")
  | Json.arr _ => true
  | Json.obj _ => true

/-- The `catch` fallback of `executeGeneration`: if the (sliced) text looks
like a bare markup document (`trim()` then `startsWith('<!DOCTYPE')` or
`startsWith('<html')`), synthesize `{"index.html": {content: text}}`;
otherwise the attempt fails with the parse error. -/
def jsonFallback (t3 : List Char) : Except String Json :=
  let tr := t3.dropWhile isRegexWs
  if List.isPrefixOf "<!DOCTYPE".data tr || List.isPrefixOf "<html".data tr then
    Except.ok (Json.obj
      [("index.html", Json.obj [("content", Json.str (String.mk t3))])])
  else Except.error "AI response was not valid JSON. Please try again."

/-- Post-parse normalization of `executeGeneration`: a truthy `files`
property is unwrapped and returned as the file map (`if (parsed.files)
return parsed.files`); `null` throws a `TypeError` on the property access
and lands in the `catch` fallback; everything else is returned as parsed. -/
def normalizeParsed (t3 : List Char) (j : Json) : Except String Json :=
  match j with
  | Json.null => jsonFallback t3
  | Json.obj fields =>
    match List.lookup "files" fields with
    | some v => if jsTruthy v then Except.ok v else Except.ok (Json.obj fields)
    | none => Except.ok (Json.obj fields)
  | other => Except.ok other

/-- The sanitization pipeline of `executeGeneration` applied to the raw
response text (`response.text || "{}"`): strip fences, slice to the
braces, parse, normalize (or fall back). -/
def sanitizeResponse (raw : String) : Except String Json :=
  let t0 := if raw = "" then "{}".data else raw.data
  let t3 := braceSlice (stripFenceSuffix (stripFencePrefix t0))
  match jsonParse t3 with
  | some j => normalizeParsed t3 j
  | none => jsonFallback t3

/-- C3.  Sanitization (i) maps the fenced response
```` ```json\n{"index.html":{"content":"<h1>hi</h1>"}}\n``` ```` to exactly
the file map `{"index.html": {"content": "<h1>hi</h1>"}}`; (ii) for every
brace-delimited body, stripping the Markdown fence wrapping and then
slicing from the first `{` to the last `}` recovers exactly the body, so
fence and conversational wrapping never reach the JSON parser; and (iii)
whenever the parsed object exposes a truthy `files` wrapper property, the
wrapper is unwrapped and its contents are returned as the file map. -/
theorem sanitize_response_spec (mid : List Char) (t3 : List Char)
    (fields : List (String × Json)) (v : Json)
    (hv : List.lookup "files" fields = some v) (htr : jsTruthy v = true) :
    sanitizeResponse
        "```json\n\x7b\"index.html\":\x7b\"content\":\"<h1>hi</h1>\"\x7d\x7d\n```" =
      Except.ok (Json.obj
        [("index.html", Json.obj [("content", Json.str "<h1>hi</h1>")])])
    ∧ braceSlice (stripFenceSuffix (stripFencePrefix
        ("```json\n".data ++ ('{' :: (mid ++ ['}'])) ++ "\n```".data))) =
      '{' :: (mid ++ ['}'])
    ∧ normalizeParsed t3 (Json.obj fields) = Except.ok v := by
  refine ⟨rfl, ?_, ?_⟩
  · have hpre : stripFencePrefix
        ("```json\n".data ++ ('{' :: (mid ++ ['}'])) ++ "\n```".data) =
        '{' :: ((mid ++ ['}']) ++ "\n```".data) := rfl
    rw [hpre]
    have hsuf : stripFenceSuffix ('{' :: ((mid ++ ['}']) ++ "\n```".data)) =
        '{' :: (mid ++ ['}', '\n']) := by
      have e1 : ('{' :: ((mid ++ ['}']) ++ "\n```".data)).reverse =
          '`' :: '`' :: '`' :: '\n' :: '}' :: (mid.reverse ++ ['{']) := by
        simp [List.reverse_cons, List.reverse_append]
      rw [stripFenceSuffix]
      rw [e1]
      have e2 : (('`' :: '`' :: '`' :: '\n' :: '}' ::
          (mid.reverse ++ ['{'])).dropWhile isRegexWs) =
          '`' :: '`' :: '`' :: '\n' :: '}' :: (mid.reverse ++ ['{']) := rfl
      rw [e2]
      rw [if_pos (show
        List.isPrefixOf "```".data ('`' :: '`' :: '`' :: '\n' :: '}' ::
          (mid.reverse ++ ['{'])) = true by rfl)]
      show ('\n' :: '}' :: (mid.reverse ++ ['{'])).reverse =
        '{' :: (mid ++ ['}', '\n'])
      simp [List.reverse_cons, List.reverse_append]
    rw [hsuf]
    rw [braceSlice]
    have hfi : List.findIdx? (fun c => c == '{')
        ('{' :: (mid ++ ['}', '\n'])) = some 0 := rfl
    have hrev : ('{' :: (mid ++ ['}', '\n'])).reverse =
        '\n' :: '}' :: (mid.reverse ++ ['{']) := by
      simp [List.reverse_cons, List.reverse_append]
    have hla : List.findIdx? (fun c => c == '}')
        ('\n' :: '}' :: (mid.reverse ++ ['{'])) = some 1 := by
      rw [findIdx?_zero_cons]
      rw [if_neg (by decide)]
      rw [findIdx?_zero_cons]
      rw [if_pos (by decide)]
      rfl
    rw [hfi, hrev, hla]
    have hlen : ('{' :: (mid ++ ['}', '\n'])).length = mid.length + 3 := by
      simp
    simp only [hlen]
    rw [if_pos (show 0 < mid.length + 3 - 1 - 1 by omega)]
    have harith : mid.length + 3 - 1 - 1 + 1 - 0 = mid.length + 2 := by omega
    rw [harith]
    rw [List.drop_zero]
    rw [show mid.length + 2 = ('{' :: mid).length + 1 by simp]
    rw [show ('{' :: (mid ++ ['}', '\n'])) = ('{' :: mid) ++ ['}', '\n'] by
      simp]
    rw [List.take_append]
    simp
  · rw [normalizeParsed]
    rw [hv]
    simp only [htr, if_true]

/-- C3 witness: part (ii) at `mid = "\"a\":1".data` (so the body is
`{"a":1}`) and part (iii) at the concrete wrapper object
`{"files": {"a": {"content":"1"}}, "note": "x"}`. -/
theorem sanitize_response_spec_witness :
    (List.lookup "files"
        [("files", Json.obj [("a", Json.obj [("content", Json.str "1")])]),
         ("note", Json.str "x")] =
      some (Json.obj [("a", Json.obj [("content", Json.str "1")])]))
    ∧ braceSlice (stripFenceSuffix (stripFencePrefix
        ("```json\n".data ++ ('{' :: ("\"a\":1".data ++ ['}'])) ++
          "\n```".data))) = '{' :: ("\"a\":1".data ++ ['}'])
    ∧ normalizeParsed "{}".data
        (Json.obj
          [("files", Json.obj [("a", Json.obj [("content", Json.str "1")])]),
           ("note", Json.str "x")]) =
      Except.ok (Json.obj [("a", Json.obj [("content", Json.str "1")])]) :=
  ⟨rfl,
   (sanitize_response_spec "\"a\":1".data "{}".data
      [("files", Json.obj [("a", Json.obj [("content", Json.str "1")])]),
       ("note", Json.str "x")]
      (Json.obj [("a", Json.obj [("content", Json.str "1")])])
      rfl rfl).2.1,
   (sanitize_response_spec "\"a\":1".data "{}".data
      [("files", Json.obj [("a", Json.obj [("content", Json.str "1")])]),
       ("note", Json.str "x")]
      (Json.obj [("a", Json.obj [("content", Json.str "1")])])
      rfl rfl).2.2⟩

/-! ## Bundler (`bundleFiles`, SignInModal.tsx, lines 575–609)

`bundleFiles` starts from `index.html`'s content; for every `.css` file it
replaces a matching `<link … href="[./]name" …>` tag (regex, `gi` flags)
with an inline `<style>` block, or, if no tag matches, inserts the block
before `</head>`; for every `.js` file the same two-branch rule runs
against `<script … src="[./]name" …></script>` and `</body>`.

The regexes are modelled by executable matchers with the regex's
backtracking semantics: `[^>]+` greedy longest-first, the optional `./`
group preferred, both quotes chosen independently, letters
case-insensitive; `name.replace('.', '\\.')` escapes only the FIRST dot, so
later dots match any non-line-terminator character.  (Names are matched as
regex literals otherwise; the file names in play contain no other regex
metacharacters.)  JS `String.replace` `$`-substitution patterns in the
replacement are not modelled. -/

/-- Case-insensitive character comparison (regex `i` flag). -/
def charCI (a b : Char) : Bool := a.toLower == b.toLower

/-- Case-insensitive literal prefix match returning the rest. -/
def ciIsPrefix : List Char → List Char → Option (List Char)
  | [], s => some s
  | _, [] => none
  | p :: ps, c :: cs => if charCI p c then ciIsPrefix ps cs else none

/-- JS regex line terminators (not matched by `.`). -/
def isLineTerm (c : Char) : Bool :=
  c == '\n' || c == '\r' || c.toNat == 0x2028 || c.toNat == 0x2029

/-- Match the file name against the input as the regex built by
`name.replace('.', '\\.')` does for names whose only regex metacharacters
are dots: the first `.` of the name is the escaped literal dot, later dots
are the regex wildcard `.`, and the remaining characters — alphanumerics,
`-`, `_`, `/` (see `plainName`) — are regex literals, matched
case-insensitively.  For names with other metacharacters `new RegExp`
quantifies them or throws a SyntaxError; such names are outside this model,
and every theorem below restricts to `plainName` names.  Returns the rest
of the input. -/
def nameMatchAux : List Char → Bool → List Char → Option (List Char)
  | [], _, s => some s
  | nc :: ns, seenDot, s =>
    match s with
    | [] => none
    | c :: cs =>
      if nc = '.' then
        if seenDot then
          if isLineTerm c then none else nameMatchAux ns true cs
        else if c = '.' then nameMatchAux ns true cs else none
      else if charCI nc c then nameMatchAux ns seenDot cs else none

/-- After the attribute value: closing quote (either kind), `[^>]*`, `>`,
then the tag-specific closer (`\s*</script>` for scripts, nothing for
links), case-insensitively. -/
def tagClose (closer : List Char) (rest : List Char) : Option (List Char) :=
  if closer.isEmpty then some rest
  else ciIsPrefix closer (rest.dropWhile isRegexWs)

/-- Name, closing quote, `[^>]*>`, closer. -/
def attrValMatch (name closer : List Char) (w : List Char) :
    Option (List Char) :=
  match nameMatchAux name false w with
  | some v =>
    match v with
    | c :: cs =>
      if c = '"' ∨ c = '\'' then
        match cs.dropWhile (fun d => d ≠ '>') with
        | '>' :: rest => tagClose closer rest
        | _ => none
      else none
    | [] => none
  | none => none

/-- Opening quote, then the optional `(\./)?` group (greedy, with
backtracking), then the attribute value.  Returns the rest of the input and
whether the capture group participated (it consumed `./`). -/
def afterAttr (name closer : List Char) : List Char → Option (List Char × Bool)
  | [] => none
  | q :: u1 =>
    if q = '"' ∨ q = '\'' then
      match u1 with
      | '.' :: '/' :: u2 =>
        match attrValMatch name closer u2 with
        | some rest => some (rest, true)
        | none => (attrValMatch name closer u1).map (fun rest => (rest, false))
      | _ => (attrValMatch name closer u1).map (fun rest => (rest, false))
    else none

/-- Greedy `[^>]+` before `href=`/`src=`: candidate lengths are tried from
the longest `'>'`-free prefix down to 1, as regex backtracking does. -/
def tryAttr (attr name closer : List Char) (t : List Char) :
    Nat → Option (List Char × Bool)
  | 0 => none
  | j + 1 =>
    match ciIsPrefix attr (t.drop (j + 1)) with
    | some u =>
      match afterAttr name closer u with
      | some rg => some rg
      | none => tryAttr attr name closer t j
    | none => tryAttr attr name closer t j

/-- Match one reference tag at the start of `s`; returns the input
remaining after the match and the `(\./)` group's participation. -/
def tagMatchAt (opener attr closer name : List Char) (s : List Char) :
    Option (List Char × Bool) :=
  match ciIsPrefix opener s with
  | some t => tryAttr attr name closer t ((t.takeWhile (fun c => c ≠ '>')).length)
  | none => none

/-- `linkRegex` of `bundleFiles` at the start of `s`: the matched length
and whether the `(\./)` capture group participated. -/
def matchLinkAt (name : List Char) (s : List Char) : Option (Nat × Bool) :=
  (tagMatchAt "<link".data "href=".data [] name s).map
    (fun rg => (s.length - rg.1.length, rg.2))

/-- `scriptRegex` of `bundleFiles` at the start of `s`. -/
def matchScriptAt (name : List Char) (s : List Char) : Option (Nat × Bool) :=
  (tagMatchAt "<script".data "src=".data "</script>".data name s).map
    (fun rg => (s.length - rg.1.length, rg.2))

/-- `regex.test(html)`: a match exists at some position. -/
def existsMatch (m : List Char → Option (Nat × Bool)) : List Char → Bool
  | [] => false
  | c :: cs => (m (c :: cs)).isSome || existsMatch m cs

/-- Text of the n-th capture (1-indexed): its characters if it
participated, the empty string if it did not. -/
def capText (caps : List (Option (List Char))) (n : Nat) : List Char :=
  (caps.getD (n - 1) none).getD []

/-- One `$`-token of ECMAScript `GetSubstitution`, given the text after a
`$`: the expansion and how many further characters the token consumed.
`$$` is a literal `$`, `$&` the matched text, ``$` `` the part of the
original string before the match, `$'` the part after it, `$nn`/`$n` the
n-th capture when it exists; otherwise `$` and the following character are
copied literally; a trailing lone `$` is a literal `$`. -/
def substToken (matched before after : List Char)
    (caps : List (Option (List Char))) : List Char → List Char × Nat
  | [] => (['$'], 0)
  | '$' :: _ => (['$'], 1)
  | '&' :: _ => (matched, 1)
  | '`' :: _ => (before, 1)
  | '\'' :: _ => (after, 1)
  | c2 :: r =>
    if c2.isDigit then
      let n := c2.toNat - '0'.toNat
      match r with
      | d :: _ =>
        if d.isDigit then
          let nn := n * 10 + (d.toNat - '0'.toNat)
          if 1 ≤ nn ∧ nn ≤ caps.length then (capText caps nn, 2)
          else if 1 ≤ n ∧ n ≤ caps.length then (capText caps n, 1)
          else (['$', c2], 1)
        else if 1 ≤ n ∧ n ≤ caps.length then (capText caps n, 1)
        else (['$', c2], 1)
      | [] =>
        if 1 ≤ n ∧ n ≤ caps.length then (capText caps n, 1)
        else (['$', c2], 1)
    else (['$', c2], 1)

/-- Scanner for `applySubst`, structurally recursive on a fuel that starts
at the replacement's length: every step consumes one fuel and at least one
character, so the input empties before the fuel does and the fuel-0 arm is
unreachable. -/
def applySubstFuel (matched before after : List Char)
    (caps : List (Option (List Char))) : Nat → List Char → List Char
  | _, [] => []
  | 0, l => l
  | fuel + 1, c :: rest =>
    if c = '$' then
      (substToken matched before after caps rest).1 ++
        applySubstFuel matched before after caps fuel
          (rest.drop (substToken matched before after caps rest).2)
    else c :: applySubstFuel matched before after caps fuel rest

/-- ECMAScript `GetSubstitution`, applied by `String.replace` to the
replacement text for each match: scan the replacement, expanding each
`$`-token via `substToken` and copying every other character. -/
def applySubst (matched before after : List Char)
    (caps : List (Option (List Char))) (repl : List Char) : List Char :=
  applySubstFuel matched before after caps repl.length repl

/-- Global regex replacement (`/g`) with `$`-substitution: scan left to
right; at each match substitute the replacement against the matched text,
the original string's surrounding parts, and the `(\./)` capture, then
continue after the match.  A match of these tag regexes always consumes at
least the opener, so `max n 1` (= `n` on every reachable match) keeps the
recursion visibly terminating.  `pre` is the already-scanned part of the
original string, reversed. -/
def regexReplaceAllAux (m : List Char → Option (Nat × Bool))
    (repl : List Char) : List Char → List Char → List Char
  | _, [] => []
  | pre, c :: cs =>
    match m (c :: cs) with
    | some (n, g) =>
      applySubst ((c :: cs).take (max n 1)) pre.reverse
          ((c :: cs).drop (max n 1))
          [if g then some "./".data else none] repl
        ++ regexReplaceAllAux m repl
            (((c :: cs).take (max n 1)).reverse ++ pre)
            ((c :: cs).drop (max n 1))
    | none => c :: regexReplaceAllAux m repl (c :: pre) cs
termination_by pre s => s.length
decreasing_by
  · simp only [List.length_drop, List.length_cons]
    omega
  · simp

/-- `html.replace(regex, block)` with the `g` flag. -/
def regexReplaceAll (m : List Char → Option (Nat × Bool))
    (repl : List Char) (s : List Char) : List Char :=
  regexReplaceAllAux m repl [] s

/-- JS `String.replace` with a plain string pattern: replace the first
occurrence only, applying `$`-substitution (with no captures) to the
replacement; no occurrence leaves the string unchanged.  `acc` is the
already-scanned prefix, reversed. -/
def replaceFirstAux (pat repl : List Char) : List Char → List Char → List Char
  | acc, [] => acc.reverse
  | acc, c :: cs =>
    if List.isPrefixOf pat (c :: cs) then
      acc.reverse ++
        applySubst pat acc.reverse ((c :: cs).drop pat.length) [] repl ++
        (c :: cs).drop pat.length
    else replaceFirstAux pat repl (c :: acc) cs

/-- `html.replace('</head>', block)`-style first-occurrence replacement. -/
def replaceFirst (pat repl s : List Char) : List Char :=
  replaceFirstAux pat repl [] s

/-- Bool substring test matching `replaceFirst`'s scan. -/
def occursIn (pat : List Char) : List Char → Bool
  | [] => List.isPrefixOf pat []
  | c :: cs => List.isPrefixOf pat (c :: cs) || occursIn pat cs

/-- File names whose characters are alphanumerics, dots, hyphens,
underscores or slashes: of these only the dots are regex metacharacters,
so `new RegExp` treats the rest as literals and `nameMatchAux` is a
faithful model of the constructed regex. -/
def plainNameChar (c : Char) : Bool :=
  c.isAlphanum || c == '.' || c == '-' || c == '_' || c == '/'

/-- All characters of the name are `plainNameChar`s. -/
def plainName (s : String) : Bool := s.data.all plainNameChar

/-- `name.endsWith(suffix)` on the character-list model. -/
def strEndsWith (s suffix : String) : Bool :=
  List.isPrefixOf suffix.data.reverse s.data.reverse

/-- The inline style block `bundleFiles` substitutes for a stylesheet. -/
def styleBlock (name content : String) : String :=
  "<style>\n/* " ++ name ++ " */\n" ++ content ++ "\n</style>"

/-- The inline script block `bundleFiles` substitutes for a script file. -/
def scriptBlock (name content : String) : String :=
  "<script>\n// " ++ name ++ "\n" ++ content ++ "\n</script>"

/-- The CSS branch of the bundler loop for one `.css` file. -/
def cssStep (h : List Char) (name content : String) : List Char :=
  if existsMatch (matchLinkAt name.data) h then
    regexReplaceAll (matchLinkAt name.data) (styleBlock name content).data h
  else
    replaceFirst "</head>".data
      ((styleBlock name content).data ++ "</head>".data) h

/-- The JS branch of the bundler loop for one `.js` file. -/
def jsStep (h : List Char) (name content : String) : List Char :=
  if existsMatch (matchScriptAt name.data) h then
    regexReplaceAll (matchScriptAt name.data) (scriptBlock name content).data h
  else
    replaceFirst "</body>".data
      ((scriptBlock name content).data ++ "</body>".data) h

/-- `bundleFiles`: error document when `index.html` is absent; otherwise
inject every `.css` file, then every `.js` file, in file-map order. -/
def bundleFiles (files : FileMap) : String :=
  match lookupFM files "index.html" with
  | none => "<h1>Error: index.html not found</h1>"
  | some indexContent =>
    let h1 := files.foldl
      (fun h kv => if strEndsWith kv.1 ".css" then cssStep h kv.1 kv.2 else h)
      indexContent.data
    let h2 := files.foldl
      (fun h kv => if strEndsWith kv.1 ".js" then jsStep h kv.1 kv.2 else h)
      h1
    String.mk h2

theorem applySubstFuel_no_dollar {l : List Char} (h : '$' ∉ l)
    (matched before after : List Char) (caps : List (Option (List Char))) :
    ∀ fuel, l.length ≤ fuel →
    applySubstFuel matched before after caps fuel l = l := by
  induction l with
  | nil => intro fuel _; cases fuel <;> rfl
  | cons c rest ih =>
    intro fuel hlen
    cases fuel with
    | zero => simp at hlen
    | succ f =>
      have hc : ¬ c = '$' := fun he => h (he ▸ List.mem_cons_self c rest)
      have hrest : '$' ∉ rest := fun hm => h (List.mem_cons_of_mem c hm)
      rw [applySubstFuel, if_neg hc,
        ih hrest f (by simpa using Nat.succ_le_succ_iff.mp hlen)]

theorem applySubst_no_dollar {repl : List Char} (h : '$' ∉ repl)
    (matched before after : List Char) (caps : List (Option (List Char))) :
    applySubst matched before after caps repl = repl :=
  applySubstFuel_no_dollar h matched before after caps repl.length
    (Nat.le_refl _)

theorem regexReplaceAllAux_decomp {m : List Char → Option (Nat × Bool)}
    {repl : List Char} (hnd : '$' ∉ repl) :
    ∀ s acc, existsMatch m s = true →
    ∃ pre post, regexReplaceAllAux m repl acc s = pre ++ repl ++ post := by
  intro s
  induction s with
  | nil =>
    intro acc h
    simp [existsMatch] at h
  | cons c cs ih =>
    intro acc h
    cases hm : m (c :: cs) with
    | some ng =>
      obtain ⟨n, g⟩ := ng
      refine ⟨[],
        regexReplaceAllAux m repl
          ((((c :: cs).take (max n 1)).reverse ++ acc))
          ((c :: cs).drop (max n 1)), ?_⟩
      rw [regexReplaceAllAux, hm]
      simp only [applySubst_no_dollar hnd]
      rfl
    | none =>
      have hex : existsMatch m cs = true := by
        rw [existsMatch, hm] at h
        simpa using h
      obtain ⟨pre, post, hp⟩ := ih (c :: acc) hex
      refine ⟨c :: pre, post, ?_⟩
      rw [regexReplaceAllAux, hm, hp]
      rfl

theorem regexReplaceAll_decomp {m : List Char → Option (Nat × Bool)}
    {repl s : List Char} (hnd : '$' ∉ repl) (h : existsMatch m s = true) :
    ∃ pre post, regexReplaceAll m repl s = pre ++ repl ++ post :=
  regexReplaceAllAux_decomp hnd s [] h

theorem replaceFirstAux_decomp {pat repl : List Char} (hne : pat ≠ [])
    (hnd : '$' ∉ repl) :
    ∀ s acc, occursIn pat s = true →
    ∃ pre post, s = pre ++ pat ++ post
      ∧ replaceFirstAux pat repl acc s =
          acc.reverse ++ pre ++ repl ++ post := by
  intro s
  induction s with
  | nil =>
    intro acc h
    rw [occursIn] at h
    cases pat with
    | nil => exact absurd rfl hne
    | cons p ps => simp [List.isPrefixOf] at h
  | cons c cs ih =>
    intro acc h
    by_cases hpre : List.isPrefixOf pat (c :: cs) = true
    · obtain ⟨rest, hrest⟩ := List.isPrefixOf_iff_prefix.mp hpre
      refine ⟨[], rest, ?_, ?_⟩
      · simpa using hrest.symm
      · rw [replaceFirstAux, if_pos hpre]
        rw [applySubst_no_dollar hnd]
        rw [← hrest, List.drop_left]
        simp
    · have hocc : occursIn pat cs = true := by
        rw [occursIn, Bool.or_eq_true] at h
        rcases h with h | h
        · exact absurd h hpre
        · exact h
      obtain ⟨pre, post, hs, hr⟩ := ih (c :: acc) hocc
      refine ⟨c :: pre, post, by simp [hs], ?_⟩
      rw [replaceFirstAux, if_neg hpre, hr]
      simp

theorem replaceFirst_decomp {pat repl s : List Char} (hne : pat ≠ [])
    (hnd : '$' ∉ repl) (h : occursIn pat s = true) :
    ∃ pre post, s = pre ++ pat ++ post
      ∧ replaceFirst pat repl s = pre ++ repl ++ post := by
  obtain ⟨pre, post, hs, hr⟩ := replaceFirstAux_decomp hne hnd s [] h
  exact ⟨pre, post, hs, by simpa using hr⟩

theorem string_data_append (a b : String) : (a ++ b).data = a.data ++ b.data :=
  rfl

theorem plainName_no_dollar {name : String} (h : plainName name = true) :
    '$' ∉ name.data := by
  intro hm
  have hall := List.all_eq_true.mp h _ hm
  exact absurd hall (by decide)

theorem styleBlock_no_dollar {name content : String}
    (hn : '$' ∉ name.data) (hc : '$' ∉ content.data) :
    '$' ∉ (styleBlock name content).data := by
  intro hm
  rw [styleBlock] at hm
  simp only [string_data_append, List.mem_append] at hm
  rcases hm with ((((h | h) | h) | h) | h)
  · exact absurd h (by decide)
  · exact hn h
  · exact absurd h (by decide)
  · exact hc h
  · exact absurd h (by decide)

/-- C5 (amended).  The original claim fails on the code for two families of
inputs, exhibited in `bundler_css_dollar_counterexample` and the review of
`new RegExp`: `$`-patterns in the stylesheet content are substituted by
`String.replace`, so the inserted block need not hold the content verbatim;
and regex metacharacters in the name other than dots are quantified (or
make the constructor throw), so a literally-referencing tag need not be
replaced.  Amended claim: for a workspace of an entry document plus one
stylesheet whose path ends in `.css`, consists of `plainName` characters
(alphanumerics, dots, `-`, `_`, `/`), and whose content contains no `$`:
(i) when the entry contains no link tag matching the stylesheet's regex
(with or without a leading `./`) but does contain `</head>`, the bundler
output contains the inline style block with the file's content immediately
before that `</head>`; (ii) when a matching link tag exists, the output is
exactly the entry with every matching tag replaced by the style block — so
the output contains the style block and the stylesheet is never silently
dropped; and (iii) the concrete scenario: entry
`<head></head><body></body>` with an unreferenced stylesheet yields an
inline style block before `</head>`. -/
theorem bundler_css_spec (html name content : String)
    (hcss : strEndsWith name ".css" = true)
    (hnjs : strEndsWith name ".js" = false)
    (hplain : plainName name = true)
    (hcd : '$' ∉ content.data) :
    (existsMatch (matchLinkAt name.data) html.data = false →
      occursIn "</head>".data html.data = true →
      ∃ pre post,
        (bundleFiles [("index.html", html), (name, content)]).data =
          pre ++ (styleBlock name content).data ++ "</head>".data ++ post)
    ∧ (existsMatch (matchLinkAt name.data) html.data = true →
      (bundleFiles [("index.html", html), (name, content)]).data =
        regexReplaceAll (matchLinkAt name.data)
          (styleBlock name content).data html.data
      ∧ ∃ pre post,
          (bundleFiles [("index.html", html), (name, content)]).data =
            pre ++ (styleBlock name content).data ++ post)
    ∧ bundleFiles [("index.html", "<head></head><body></body>"),
        ("styles.css", "body{}")] =
      "<head><style>\n/* styles.css */\nbody{}\n</style></head><body></body>" := by
  have hred : (bundleFiles [("index.html", html), (name, content)]).data =
      cssStep html.data name content := by
    rw [bundleFiles]
    rw [show lookupFM [("index.html", html), (name, content)] "index.html" =
      some html from rfl]
    simp only [List.foldl,
      show strEndsWith "index.html" ".css" = false from rfl,
      show strEndsWith "index.html" ".js" = false from rfl,
      hcss, hnjs, Bool.false_eq_true, if_false, if_true]
  have hsb : '$' ∉ (styleBlock name content).data :=
    styleBlock_no_dollar (plainName_no_dollar hplain) hcd
  refine ⟨?_, ?_, rfl⟩
  · intro hno hin
    rw [hred, cssStep, if_neg (by simp [hno])]
    obtain ⟨pre, post, -, hr⟩ :=
      @replaceFirst_decomp "</head>".data
        ((styleBlock name content).data ++ "</head>".data) html.data
        (by decide)
        (by
          intro hm
          rcases List.mem_append.mp hm with hm | hm
          · exact hsb hm
          · exact absurd hm (by decide))
        hin
    refine ⟨pre, post, ?_⟩
    rw [hr]
    simp [List.append_assoc]
  · intro hyes
    refine ⟨?_, ?_⟩
    · rw [hred, cssStep, if_pos hyes]
    · obtain ⟨pre, post, hr⟩ :=
        @regexReplaceAll_decomp (matchLinkAt name.data)
          (styleBlock name content).data html.data hsb hyes
      refine ⟨pre, post, ?_⟩
      rw [hred, cssStep, if_pos hyes, hr]

/-- C5 witness: the concrete unreferenced-stylesheet workspace discharges
the no-match branch of the amended claim. -/
theorem bundler_css_spec_witness :
    existsMatch (matchLinkAt "styles.css".data)
        "<head></head><body></body>".data = false
    ∧ occursIn "</head>".data "<head></head><body></body>".data = true
    ∧ ∃ pre post,
        (bundleFiles [("index.html", "<head></head><body></body>"),
            ("styles.css", "body{}")]).data =
          pre ++ (styleBlock "styles.css" "body{}").data ++
            "</head>".data ++ post :=
  ⟨rfl, rfl,
   (bundler_css_spec "<head></head><body></body>" "styles.css" "body{}"
      rfl rfl rfl (by decide)).1 rfl rfl⟩

/-- C5 counterexample.  Stylesheet `styles.css` with content `$&`,
referenced nowhere in the entry `<head></head><body></body>`: no link tag
matches (first conjunct) and `</head>` is present, yet `String.replace`
substitutes `$&` in the replacement with the matched `</head>`, so the
bundled output (second conjunct, the code's actual result, with `</head>`
in place of the content inside the style block) nowhere contains an inline
style block holding the file's content (third conjunct) — refuting the
claim that the inserted block always holds the stylesheet's content. -/
theorem bundler_css_dollar_counterexample :
    existsMatch (matchLinkAt "styles.css".data)
        "<head></head><body></body>".data = false
    ∧ bundleFiles [("index.html", "<head></head><body></body>"),
        ("styles.css", "$&")] =
      "<head><style>\n/* styles.css */\n</head>\n</style></head><body></body>"
    ∧ ¬ ∃ pre post,
        (bundleFiles [("index.html", "<head></head><body></body>"),
            ("styles.css", "$&")]).data =
          pre ++ (styleBlock "styles.css" "$&").data ++ post := by
  refine ⟨rfl, rfl, ?_⟩
  rintro ⟨pre, post, h⟩
  have hmem : '$' ∈ (bundleFiles [("index.html", "<head></head><body></body>"),
      ("styles.css", "$&")]).data := by
    rw [h]
    exact List.mem_append.mpr
      (Or.inl (List.mem_append.mpr (Or.inr (by decide))))
  exact absurd hmem (by decide)

end Spec2Proof
